import Mathlib

/-!
Verification development for the `polyeval` polynomial-evaluation library.

The library offers a runtime Horner evaluator over a dynamically sized
coefficient slice, a fixed-arity variant over arrays, and compile-time
code generators (plain and FMA-fused) for Horner's method and Estrin's
scheme, each with a single-evaluation (`let`-prefixed) form.

The definitions below are shallow embeddings of the Rust source
(`src/lib.rs`): coefficient slices become `List T`, the trait bounds
`Zero + Add + Mul` become the corresponding type-class binders, the
textual expansion produced by the code generators is modelled by
recursive functions mirroring each expansion rule, and the number of
times the evaluation-point expression executes is tracked by `Run`
variants that pair each value with an evaluation count.
-/

set_option maxHeartbeats 1000000

namespace Polyeval

section Defs

variable {T : Type} [Mul T] [Add T] [Zero T]

/-- Embedding of `pub fn horner<T>(x: T, coeffs: &[T]) -> T`
(src/lib.rs lines 50-57): `coeffs.iter().rfold(T::zero(), |acc, c| acc * &x + c)`.
The right-to-left fold with accumulator is exactly `List.foldr` with the
combining function `fun c acc => acc * x + c`. -/
def horner (x : T) (coeffs : List T) : T :=
  coeffs.foldr (fun c acc => acc * x + c) 0

/-- Embedding of `pub fn horner_array<T, const N: usize>(x: T, coeffs: &[T; N]) -> T`
(src/lib.rs lines 81-88); the array `[T; N]` becomes a length-indexed list and
the body is the identical `rfold`. -/
def horner_array (N : ℕ) (x : T) (coeffs : { l : List T // l.length = N }) : T :=
  coeffs.val.foldr (fun c acc => acc * x + c) 0

/-- Embedding of `pub fn mul_add<T: MulAdd>(x: T, a: T, b: T) -> T`
(src/lib.rs lines 27-29): `x.mul_add(a, b)`, i.e. `x * a + b` (for exact
arithmetic the fused operation coincides with multiply-then-add). -/
def mul_add (x a b : T) : T := x * a + b

/-- Explicit accumulator loop: repeatedly update `acc := acc * x + c` while
walking a list of coefficients; feeding it the reversed coefficient list is
the "highest index to lowest" traversal performed by `rfold`. -/
def rfoldLoop (x : T) : T → List T → T
  | acc, [] => acc
  | acc, c :: rest => rfoldLoop x (acc * x + c) rest

/-- Modelled from the spec: the nested Horner form
`c₀ + x·(c₁ + x·(c₂ + … + x·cₙ₋₁…))` that the contract in spec §4.1 says the
evaluator returns (with the empty sequence denoting the additive identity). -/
def hornerNestedSpec (x : T) : List T → T
  | [] => 0
  | c :: cs => c + x * hornerNestedSpec x cs

/-- Value of the expression generated by the plain `horner!` rules
(src/lib.rs lines 137-147): one coefficient expands to itself, and
`a, rest...` expands to `a + x * (expansion of rest)`.  The first
coefficient is a separate argument because the rules require at least one. -/
def hornerUnrolled (x a : T) : List T → T
  | [] => a
  | b :: rest => a + x * hornerUnrolled x b rest

/-- Value of the expression generated by `horner_fma!`
(src/lib.rs lines 154-164): `a, rest...` expands to
`mul_add(horner_fma!(x; rest), x, a)`. -/
def hornerFmaUnrolled (x a : T) : List T → T
  | [] => a
  | b :: rest => mul_add (hornerFmaUnrolled x b rest) x a

mutual

/-- Value of the expression generated by the `estrin!` entry rules
(src/lib.rs lines 212-241): one coefficient expands to itself, two expand
to `a0 + x * a1`, and three or more start the pairwise reduction with the
first pair `a0 + x * a1` placed in the output accumulator. -/
def estrinMain (x : T) : List T → T
  | [] => 0
  | [a] => a
  | [a0, a1] => a0 + x * a1
  | a0 :: a1 :: c :: rest => estrinAux x (a0 + x * a1) [] (c :: rest)
termination_by l => 3 * l.length

/-- Value of the `estrin!` reduction rules carrying an output accumulator
`$($out),+` (nonempty, modelled as head `o` and tail `os`): with one
coefficient left it binds `x*x` and restarts on `out..., a0`; with two left
it binds `x*x` and restarts on `out..., a0 + x*a1`; otherwise it moves the
pair `a0 + x*a1` to the accumulator. -/
def estrinAux (x o : T) (os : List T) : List T → T
  | [] => 0
  | [a0] => estrinMain (x * x) ((o :: os) ++ [a0])
  | [a0, a1] => estrinMain (x * x) ((o :: os) ++ [a0 + x * a1])
  | a0 :: a1 :: c :: rest => estrinAux x o (os ++ [a0 + x * a1]) (c :: rest)
termination_by l => 4 * (1 + os.length) + 3 * l.length

end

mutual

/-- Value of the expression generated by the `estrin_fma!` entry rules
(src/lib.rs lines 248-277); pairs combine through `mul_add(x, a1, a0)`. -/
def estrinFmaMain (x : T) : List T → T
  | [] => 0
  | [a] => a
  | [a0, a1] => mul_add x a1 a0
  | a0 :: a1 :: c :: rest => estrinFmaAux x (mul_add x a1 a0) [] (c :: rest)
termination_by l => 3 * l.length

/-- Value of the `estrin_fma!` reduction rules with a nonempty output
accumulator, exactly parallel to `estrinAux`. -/
def estrinFmaAux (x o : T) (os : List T) : List T → T
  | [] => 0
  | [a0] => estrinFmaMain (x * x) ((o :: os) ++ [a0])
  | [a0, a1] => estrinFmaMain (x * x) ((o :: os) ++ [mul_add x a1 a0])
  | a0 :: a1 :: c :: rest => estrinFmaAux x o (os ++ [mul_add x a1 a0]) (c :: rest)
termination_by l => 4 * (1 + os.length) + 3 * l.length

end

/-- Modelled from the spec (§4.5): one round of pairwise reduction from the
low end, `bᵢ = a₂ᵢ + x·a₂ᵢ₊₁`, with an odd final coefficient carried through
unchanged. -/
def pairReduce (x : T) : List T → List T
  | [] => []
  | [a] => [a]
  | a :: b :: rest => (a + x * b) :: pairReduce x rest

/-- Modelled from the spec (§4.6): the FMA-fused pairwise reduction round,
`bᵢ = fma(x, a₂ᵢ₊₁, a₂ᵢ)`, odd final coefficient carried through. -/
def pairReduceFma (x : T) : List T → List T
  | [] => []
  | [a] => [a]
  | a :: b :: rest => mul_add x b a :: pairReduceFma x rest

end Defs

section RunDefs

variable {T : Type} [Mul T] [Add T] [Zero T]

/-- Run of the plain `horner!` expansion when the evaluation point is a
side-effecting expression that always yields `xv`: returns the computed
value together with the number of times the point expression executes
(once per occurrence of `$x` in the generated code). -/
def hornerUnrolledRun (xv a : T) : List T → T × ℕ
  | [] => (a, 0)
  | b :: rest =>
    let p := hornerUnrolledRun xv b rest
    (a + xv * p.1, p.2 + 1)

/-- Run of the `let`-prefixed `horner!` form: `{ let x = $x; horner!(x; …) }`
evaluates the point expression exactly once and the unrolled body uses the
bound variable. -/
def hornerLetRun (xv a : T) (rest : List T) : T × ℕ :=
  (hornerUnrolled xv a rest, 1)

/-- Run of the `let`-prefixed `horner_fma!` form. -/
def hornerFmaLetRun (xv a : T) (rest : List T) : T × ℕ :=
  (hornerFmaUnrolled xv a rest, 1)

/-- Run of the `let`-prefixed `estrin!` form. -/
def estrinLetRun (xv : T) (l : List T) : T × ℕ :=
  (estrinMain xv l, 1)

/-- Run of the `let`-prefixed `estrin_fma!` form. -/
def estrinFmaLetRun (xv : T) (l : List T) : T × ℕ :=
  (estrinFmaMain xv l, 1)

/-- Run of the `estrin!` reduction rules with a side-effecting point
expression always yielding `xv`: the two terminal rules evaluate `$x`
twice in `let x = $x*$x` (plus once more for the final pair in the
two-left rule), each pair step evaluates it once, and the recursive
sub-expansion under the binding uses the bound variable, so it is the
pure `estrinMain`. -/
def estrinAuxRun (xv o : T) (os : List T) : List T → T × ℕ
  | [] => (0, 0)
  | [a0] => (estrinMain (xv * xv) ((o :: os) ++ [a0]), 2)
  | [a0, a1] => (estrinMain (xv * xv) ((o :: os) ++ [a0 + xv * a1]), 3)
  | a0 :: a1 :: c :: rest =>
    let p := estrinAuxRun xv o (os ++ [a0 + xv * a1]) (c :: rest)
    (p.1, p.2 + 1)
termination_by l => l.length

/-- Run of the plain `estrin!` expansion with a side-effecting point
expression always yielding `xv`.  Occurrences of `$x` exist only in the
first reduction round: each pair `a + $x * b` contains one, and the single
internal binding `let x = $x*$x` contains two. -/
def estrinMainRun (xv : T) : List T → T × ℕ
  | [] => (0, 0)
  | [a] => (a, 0)
  | [a0, a1] => (a0 + xv * a1, 1)
  | a0 :: a1 :: c :: rest =>
    let p := estrinAuxRun xv (a0 + xv * a1) [] (c :: rest)
    (p.1, p.2 + 1)

end RunDefs

section OptDefs

variable {T : Type} [Mul T] [Add T] [Zero T]

/-- Expansion of the bare comma form `horner!(x; a₀, …)` as a fallible
translation step: the rules (src/lib.rs lines 140-142) only match at least
one coefficient, so the empty list has no expansion (`none` models the
build-time rejection). -/
def hornerBareOpt (x : T) : List T → Option T
  | [] => none
  | a :: rest => some (hornerUnrolled x a rest)

/-- Expansion of the bracketed form `horner!(x; [a₀, …])`: the bracket rule
requires one-or-more coefficients and unwraps to the bare form. -/
def hornerBracketOpt (x : T) : List T → Option T
  | [] => none
  | a :: rest => hornerBareOpt x (a :: rest)

/-- Expansion of the bare comma form of `horner_fma!`. -/
def hornerFmaBareOpt (x : T) : List T → Option T
  | [] => none
  | a :: rest => some (hornerFmaUnrolled x a rest)

/-- Expansion of the bracketed form of `horner_fma!` (bracket rule requires
one-or-more coefficients). -/
def hornerFmaBracketOpt (x : T) : List T → Option T
  | [] => none
  | a :: rest => hornerFmaBareOpt x (a :: rest)

/-- Expansion of the bare comma form of `estrin!`: no rule matches an empty
coefficient list. -/
def estrinBareOpt (x : T) : List T → Option T
  | [] => none
  | a :: rest => some (estrinMain x (a :: rest))

/-- Expansion of the bracketed form of `estrin!`: the bracket rule
(src/lib.rs line 215) matches zero-or-more coefficients and unwraps to the
bare form, which then rejects the empty list. -/
def estrinBracketOpt (x : T) (l : List T) : Option T :=
  estrinBareOpt x l

/-- Expansion of the bare comma form of `estrin_fma!`. -/
def estrinFmaBareOpt (x : T) : List T → Option T
  | [] => none
  | a :: rest => some (estrinFmaMain x (a :: rest))

/-- Expansion of the bracketed form of `estrin_fma!` (zero-or-more bracket
rule unwrapping to the bare form). -/
def estrinFmaBracketOpt (x : T) (l : List T) : Option T :=
  estrinFmaBareOpt x l

end OptDefs

section SynDefs

/-- Syntax of the straight-line expressions produced by the plain `horner!`
expansion: the evaluation-point expression `X`, the `i`-th coefficient
expression, sums and products. -/
inductive PExpr where
  | X : PExpr
  | coeff (i : ℕ) : PExpr
  | add (a b : PExpr) : PExpr
  | mul (a b : PExpr) : PExpr
deriving DecidableEq

/-- Number of multiplications in a generated expression. -/
def countMul : PExpr → ℕ
  | .X => 0
  | .coeff _ => 0
  | .add a b => countMul a + countMul b
  | .mul a b => countMul a + countMul b + 1

/-- Number of additions in a generated expression. -/
def countAdd : PExpr → ℕ
  | .X => 0
  | .coeff _ => 0
  | .add a b => countAdd a + countAdd b + 1
  | .mul a b => countAdd a + countAdd b

/-- Number of textual occurrences of the evaluation-point expression. -/
def countX : PExpr → ℕ
  | .X => 1
  | .coeff _ => 0
  | .add a b => countX a + countX b
  | .mul a b => countX a + countX b

/-- Coefficient atoms occurring in a generated expression, left to right. -/
def coeffList : PExpr → List ℕ
  | .X => []
  | .coeff i => [i]
  | .add a b => coeffList a ++ coeffList b
  | .mul a b => coeffList a ++ coeffList b

/-- Syntactic expansion of the plain `horner!` rules on the coefficient
expressions `cᵢ, cᵢ₊₁, …, cᵢ₊ₘ`: a single coefficient expands to itself,
and otherwise to `cᵢ + X * (expansion of the rest)`. -/
def hornerSyn (i : ℕ) : ℕ → PExpr
  | 0 => .coeff i
  | m + 1 => .add (.coeff i) (.mul .X (hornerSyn (i + 1) m))

end SynDefs

section OpsDefs

variable {T : Type} [Mul T] [Add T] [Zero T]

/-- Instrumented runtime Horner fold: the same `rfold` as `horner`, also
counting the multiplications and additions it performs (one of each per
coefficient processed). -/
def hornerOps (x : T) (coeffs : List T) : T × ℕ × ℕ :=
  coeffs.foldr (fun c r => (r.1 * x + c, r.2.1 + 1, r.2.2 + 1)) (0, 0, 0)

end OpsDefs

section BasicLemmas

variable {T : Type} [Mul T] [Add T] [Zero T]

omit [Zero T] in
theorem rfoldLoop_append (x : T) :
    ∀ (l1 l2 : List T) (acc : T),
      rfoldLoop x acc (l1 ++ l2) = rfoldLoop x (rfoldLoop x acc l1) l2
  | [], _, _ => rfl
  | c :: rest, l2, acc => by
    simp only [List.cons_append, rfoldLoop]
    exact rfoldLoop_append x rest l2 (acc * x + c)

omit [Zero T] in
theorem rfoldLoop_reverse_eq_foldr (x : T) :
    ∀ (l : List T) (acc : T),
      rfoldLoop x acc l.reverse = l.foldr (fun c a => a * x + c) acc
  | [], _ => rfl
  | c :: rest, acc => by
    simp only [List.reverse_cons, List.foldr_cons]
    rw [rfoldLoop_append, rfoldLoop_reverse_eq_foldr x rest acc]
    rfl

theorem horner_nil (x : T) : horner x [] = 0 := rfl

theorem horner_cons (x c : T) (cs : List T) :
    horner x (c :: cs) = horner x cs * x + c := rfl

theorem horner_eq_rfoldLoop_reverse (x : T) (l : List T) :
    horner x l = rfoldLoop x 0 l.reverse := by
  rw [rfoldLoop_reverse_eq_foldr]
  rfl

theorem horner_array_eq_horner (x : T) (l : List T) :
    horner_array l.length x ⟨l, rfl⟩ = horner x l := rfl

omit [Zero T] in
theorem pairReduce_length (x : T) :
    ∀ l : List T, (pairReduce x l).length = (l.length + 1) / 2
  | [] => by simp [pairReduce]
  | [_] => by simp [pairReduce]
  | _ :: _ :: rest => by
    simp only [pairReduce, List.length_cons]
    rw [pairReduce_length x rest]
    omega

omit [Zero T] in
theorem pairReduceFma_length (x : T) :
    ∀ l : List T, (pairReduceFma x l).length = (l.length + 1) / 2
  | [] => by simp [pairReduceFma]
  | [_] => by simp [pairReduceFma]
  | _ :: _ :: rest => by
    simp only [pairReduceFma, List.length_cons]
    rw [pairReduceFma_length x rest]
    omega

theorem estrinAux_eq (x o : T) :
    ∀ (os : List T) (c0 : T) (crest : List T),
      estrinAux x o os (c0 :: crest) =
        estrinMain (x * x) ((o :: os) ++ pairReduce x (c0 :: crest))
  | os, a0, [] => by
    simp [estrinAux, pairReduce]
  | os, a0, [a1] => by
    simp [estrinAux, pairReduce]
  | os, a0, a1 :: c :: rest => by
    have ih := estrinAux_eq x o (os ++ [a0 + x * a1]) c rest
    simp only [estrinAux]
    rw [ih]
    simp [pairReduce]

theorem estrin_round (x a0 a1 c : T) (rest : List T) :
    estrinMain x (a0 :: a1 :: c :: rest) =
      estrinMain (x * x) (pairReduce x (a0 :: a1 :: c :: rest)) := by
  simp only [estrinMain]
  rw [estrinAux_eq]
  simp [pairReduce]

theorem estrinFmaAux_eq (x o : T) :
    ∀ (os : List T) (c0 : T) (crest : List T),
      estrinFmaAux x o os (c0 :: crest) =
        estrinFmaMain (x * x) ((o :: os) ++ pairReduceFma x (c0 :: crest))
  | os, a0, [] => by
    simp [estrinFmaAux, pairReduceFma]
  | os, a0, [a1] => by
    simp [estrinFmaAux, pairReduceFma]
  | os, a0, a1 :: c :: rest => by
    have ih := estrinFmaAux_eq x o (os ++ [mul_add x a1 a0]) c rest
    simp only [estrinFmaAux]
    rw [ih]
    simp [pairReduceFma]

theorem estrinFma_round (x a0 a1 c : T) (rest : List T) :
    estrinFmaMain x (a0 :: a1 :: c :: rest) =
      estrinFmaMain (x * x) (pairReduceFma x (a0 :: a1 :: c :: rest)) := by
  simp only [estrinFmaMain]
  rw [estrinFmaAux_eq]
  simp [pairReduceFma]

omit [Zero T] in
theorem hornerUnrolledRun_count (xv a : T) :
    ∀ l : List T, (hornerUnrolledRun xv a l).2 = l.length
  | [] => rfl
  | b :: rest => by
    simp only [hornerUnrolledRun, List.length_cons]
    rw [hornerUnrolledRun_count xv b rest]

omit [Zero T] in
theorem hornerUnrolledRun_fst (xv a : T) :
    ∀ l : List T, (hornerUnrolledRun xv a l).1 = hornerUnrolled xv a l
  | [] => rfl
  | b :: rest => by
    simp only [hornerUnrolledRun, hornerUnrolled]
    rw [hornerUnrolledRun_fst xv b rest]

theorem estrinAuxRun_count (xv o : T) :
    ∀ (os : List T) (c0 : T) (crest : List T),
      (estrinAuxRun xv o os (c0 :: crest)).2 = (c0 :: crest).length / 2 + 2
  | _, _, [] => by simp [estrinAuxRun]
  | _, _, [_] => by simp [estrinAuxRun]
  | os, a0, a1 :: c :: rest => by
    simp only [estrinAuxRun]
    rw [estrinAuxRun_count xv o (os ++ [a0 + xv * a1]) c rest]
    simp only [List.length_cons]
    omega

theorem estrinMainRun_count (xv a0 a1 c : T) (rest : List T) :
    (estrinMainRun xv (a0 :: a1 :: c :: rest)).2 =
      (a0 :: a1 :: c :: rest).length / 2 + 2 := by
  simp only [estrinMainRun]
  rw [estrinAuxRun_count]
  simp only [List.length_cons]
  omega

theorem hornerOps_eq (x : T) :
    ∀ l : List T, hornerOps x l = (horner x l, l.length, l.length)
  | [] => rfl
  | c :: rest => by
    have ih := hornerOps_eq x rest
    have h1 : hornerOps x (c :: rest) =
        ((hornerOps x rest).1 * x + c,
          (hornerOps x rest).2.1 + 1, (hornerOps x rest).2.2 + 1) := rfl
    rw [h1, ih, horner_cons]
    simp

end BasicLemmas

section SynLemmas

theorem countMul_hornerSyn : ∀ (m i : ℕ), countMul (hornerSyn i m) = m
  | 0, _ => rfl
  | m + 1, i => by
    simp only [hornerSyn, countMul]
    rw [countMul_hornerSyn m (i + 1)]
    omega

theorem countAdd_hornerSyn : ∀ (m i : ℕ), countAdd (hornerSyn i m) = m
  | 0, _ => rfl
  | m + 1, i => by
    simp only [hornerSyn, countAdd]
    rw [countAdd_hornerSyn m (i + 1)]
    omega

theorem countX_hornerSyn : ∀ (m i : ℕ), countX (hornerSyn i m) = m
  | 0, _ => rfl
  | m + 1, i => by
    simp only [hornerSyn, countX]
    rw [countX_hornerSyn m (i + 1)]
    omega

theorem coeffList_hornerSyn : ∀ (m i : ℕ), coeffList (hornerSyn i m) = List.range' i (m + 1)
  | 0, i => by simp [hornerSyn, coeffList, List.range']
  | m + 1, i => by
    simp only [hornerSyn, coeffList]
    rw [coeffList_hornerSyn m (i + 1)]
    simp [List.range']

end SynLemmas

section AlgebraLemmas

variable {S : Type} [CommSemiring S]

theorem horner_eq_nested (x : S) : ∀ l : List S, horner x l = hornerNestedSpec x l
  | [] => rfl
  | c :: cs => by
    rw [horner_cons, horner_eq_nested x cs]
    simp only [hornerNestedSpec]
    ring

theorem hornerUnrolled_eq_nested (x a : S) :
    ∀ l : List S, hornerUnrolled x a l = hornerNestedSpec x (a :: l)
  | [] => by simp [hornerUnrolled, hornerNestedSpec]
  | b :: rest => by
    simp only [hornerUnrolled]
    rw [hornerUnrolled_eq_nested x b rest]
    simp only [hornerNestedSpec]

theorem hornerFmaUnrolled_eq_unrolled (x a : S) :
    ∀ l : List S, hornerFmaUnrolled x a l = hornerUnrolled x a l
  | [] => rfl
  | b :: rest => by
    simp only [hornerFmaUnrolled, hornerUnrolled, mul_add]
    rw [hornerFmaUnrolled_eq_unrolled x b rest]
    ring

theorem nested_pairReduce (x : S) :
    ∀ l : List S, hornerNestedSpec (x * x) (pairReduce x l) = hornerNestedSpec x l
  | [] => rfl
  | [a] => by simp [pairReduce, hornerNestedSpec]
  | a :: b :: rest => by
    simp only [pairReduce, hornerNestedSpec]
    rw [nested_pairReduce x rest]
    ring

theorem nested_pairReduceFma (x : S) :
    ∀ l : List S, hornerNestedSpec (x * x) (pairReduceFma x l) = hornerNestedSpec x l
  | [] => rfl
  | [a] => by simp [pairReduceFma, hornerNestedSpec]
  | a :: b :: rest => by
    simp only [pairReduceFma, hornerNestedSpec, mul_add]
    rw [nested_pairReduceFma x rest]
    ring

theorem estrinMain_eq_nested (x : S) :
    ∀ l : List S, estrinMain x l = hornerNestedSpec x l
  | [] => by simp [estrinMain, hornerNestedSpec]
  | [a] => by simp [estrinMain, hornerNestedSpec]
  | [a0, a1] => by simp [estrinMain, hornerNestedSpec]
  | a0 :: a1 :: c :: rest => by
    rw [estrin_round]
    rw [estrinMain_eq_nested (x * x) (pairReduce x (a0 :: a1 :: c :: rest))]
    exact nested_pairReduce x _
termination_by l => l.length
decreasing_by
  simp only [pairReduce_length, List.length_cons]
  omega

theorem estrinFmaMain_eq_nested (x : S) :
    ∀ l : List S, estrinFmaMain x l = hornerNestedSpec x l
  | [] => by simp [estrinFmaMain, hornerNestedSpec]
  | [a] => by simp [estrinFmaMain, hornerNestedSpec]
  | [a0, a1] => by
    simp [estrinFmaMain, hornerNestedSpec, mul_add]
    ring
  | a0 :: a1 :: c :: rest => by
    rw [estrinFma_round]
    rw [estrinFmaMain_eq_nested (x * x) (pairReduceFma x (a0 :: a1 :: c :: rest))]
    exact nested_pairReduceFma x _
termination_by l => l.length
decreasing_by
  simp only [pairReduceFma_length, List.length_cons]
  omega

end AlgebraLemmas

section Claims

/-- C1: for every coefficient slice and every point of a type with addition,
multiplication and an additive identity, the runtime evaluator `horner`
returns the nested form `c₀ + x·(c₁ + x·(c₂ + … + x·cₙ₋₁…))`, computed by
traversing the coefficients from highest index to lowest with an accumulator
initialized to the additive identity and updated as `accumulator·x + cᵢ`;
for the empty slice it returns the additive identity. -/
theorem horner_contract :
    (∀ (T : Type) [Mul T] [Add T] [Zero T] (x : T) (coeffs : List T),
        horner x ([] : List T) = 0 ∧
        (∀ (c : T) (cs : List T), horner x (c :: cs) = horner x cs * x + c) ∧
        horner x coeffs = rfoldLoop x 0 coeffs.reverse) ∧
    (∀ (S : Type) [CommSemiring S] (x : S) (coeffs : List S),
        horner x coeffs = hornerNestedSpec x coeffs) := by
  constructor
  · intro T _ _ _ x coeffs
    exact ⟨rfl, fun c cs => rfl, horner_eq_rfoldLoop_reverse x coeffs⟩
  · intro S _ x coeffs
    exact horner_eq_nested x coeffs

/-- C2: for every nonempty literal coefficient list and every point in an
exact-arithmetic domain (formalized as a commutative semiring, such as the
integers), the runtime evaluator and the four generated expansions all
return the same value; in particular for `x = 7` and coefficients
`[2, 3, 4]` every strategy returns `219`. -/
theorem strategies_agree :
    (∀ (S : Type) [CommSemiring S] (x a : S) (rest : List S),
        hornerUnrolled x a rest = horner x (a :: rest) ∧
        hornerFmaUnrolled x a rest = horner x (a :: rest) ∧
        estrinMain x (a :: rest) = horner x (a :: rest) ∧
        estrinFmaMain x (a :: rest) = horner x (a :: rest)) ∧
    (horner (7 : ℤ) [2, 3, 4] = 219 ∧
      hornerUnrolled (7 : ℤ) 2 [3, 4] = 219 ∧
      hornerFmaUnrolled (7 : ℤ) 2 [3, 4] = 219 ∧
      estrinMain (7 : ℤ) [2, 3, 4] = 219 ∧
      estrinFmaMain (7 : ℤ) [2, 3, 4] = 219) := by
  constructor
  · intro S _ x a rest
    refine ⟨?_, ?_, ?_, ?_⟩
    · rw [hornerUnrolled_eq_nested, horner_eq_nested]
    · rw [hornerFmaUnrolled_eq_unrolled, hornerUnrolled_eq_nested, horner_eq_nested]
    · rw [estrinMain_eq_nested, horner_eq_nested]
    · rw [estrinFmaMain_eq_nested, horner_eq_nested]
  · refine ⟨by decide, by decide, by decide, ?_, ?_⟩
    · simp [estrinMain, estrinAux]
    · simp [estrinFmaMain, estrinFmaAux, mul_add]

/-- C3: the `estrin!` expansion follows the specified recursion: one
coefficient gives that coefficient; two give `a₀ + x·a₁` with no squaring;
for three or more, consecutive pairs are combined from the low end as
`bᵢ = a₂ᵢ + x·a₂ᵢ₊₁` with an odd final coefficient carried through, and the
expansion continues on the reduced list with the squared point `x·x`, which
the run model shows is computed once (two evaluations of the point, and the
recursive sub-expansion contributes none). -/
theorem estrin_recursion :
    ∀ (T : Type) [Mul T] [Add T] [Zero T] (x a a0 a1 c : T) (rest l : List T),
      estrinMain x [a] = a ∧
      estrinMain x [a0, a1] = a0 + x * a1 ∧
      pairReduce x [a] = [a] ∧
      pairReduce x (a0 :: a1 :: l) = (a0 + x * a1) :: pairReduce x l ∧
      estrinMain x (a0 :: a1 :: c :: rest) =
        estrinMain (x * x) (pairReduce x (a0 :: a1 :: c :: rest)) ∧
      (estrinMainRun x (a0 :: a1 :: c :: rest)).2 =
        (a0 :: a1 :: c :: rest).length / 2 + 2 := by
  intro T _ _ _ x a a0 a1 c rest l
  refine ⟨by simp [estrinMain], by simp [estrinMain], by simp [pairReduce],
    ?_, estrin_round x a0 a1 c rest, estrinMainRun_count x a0 a1 c rest⟩
  cases l with
  | nil => simp [pairReduce]
  | cons b bs => simp [pairReduce]

/-- C4 (corrected): the single-evaluation form of each generated expansion
evaluates the point expression exactly once for every coefficient count
`n ≥ 1`; the plain `horner!` form evaluates it exactly `n−1` times (once per
multiplication site), which is strictly more than once whenever `n > 2`;
in particular exactly 2 times for 3 coefficients in the plain form and
exactly 1 time in the `let` form. -/
theorem single_eval_counts :
    ∀ (T : Type) [Mul T] [Add T] [Zero T] (xv a b c : T) (rest rest2 : List T),
      (hornerUnrolledRun xv a rest).2 = rest.length ∧
      (hornerLetRun xv a rest).2 = 1 ∧
      (hornerFmaLetRun xv a rest).2 = 1 ∧
      (estrinLetRun xv rest).2 = 1 ∧
      (estrinFmaLetRun xv rest).2 = 1 ∧
      1 < (hornerUnrolledRun xv a (b :: c :: rest2)).2 ∧
      (hornerUnrolledRun xv a [b, c]).2 = 2 := by
  intro T _ _ _ xv a b c rest rest2
  refine ⟨hornerUnrolledRun_count xv a rest, rfl, rfl, rfl, rfl, ?_, ?_⟩
  · rw [hornerUnrolledRun_count]
    simp
  · rw [hornerUnrolledRun_count]
    rfl

/-- C4 counterexample: with `n = 2` coefficients the plain `horner!` form
evaluates the point expression exactly once, so "strictly more than once
whenever `n > 1`" fails at `n = 2`. -/
theorem plain_two_coeffs_not_more_than_once :
    (1 : ℕ) < [(1 : ℤ), 2].length ∧
      (hornerUnrolledRun (5 : ℤ) 1 [2]).2 = 1 ∧
      ¬ 1 < (hornerUnrolledRun (5 : ℤ) 1 [2]).2 := by
  refine ⟨by decide, rfl, by decide⟩

/-- C5: supplying zero coefficients to any of the four generation facilities,
in either the bare comma form or the bracketed form, has no expansion (the
fallible translation returns `none`, modelling the build-time rejection),
uniformly across all four variants, while every nonempty list expands. -/
theorem zero_coeffs_rejected :
    ∀ (T : Type) [Mul T] [Add T] [Zero T] (x a : T) (rest : List T),
      hornerBareOpt x ([] : List T) = none ∧
      hornerBracketOpt x ([] : List T) = none ∧
      hornerFmaBareOpt x ([] : List T) = none ∧
      hornerFmaBracketOpt x ([] : List T) = none ∧
      estrinBareOpt x ([] : List T) = none ∧
      estrinBracketOpt x ([] : List T) = none ∧
      estrinFmaBareOpt x ([] : List T) = none ∧
      estrinFmaBracketOpt x ([] : List T) = none ∧
      (hornerBareOpt x (a :: rest)).isSome = true ∧
      (hornerBracketOpt x (a :: rest)).isSome = true ∧
      (hornerFmaBareOpt x (a :: rest)).isSome = true ∧
      (hornerFmaBracketOpt x (a :: rest)).isSome = true ∧
      (estrinBareOpt x (a :: rest)).isSome = true ∧
      (estrinBracketOpt x (a :: rest)).isSome = true ∧
      (estrinFmaBareOpt x (a :: rest)).isSome = true ∧
      (estrinFmaBracketOpt x (a :: rest)).isSome = true := by
  intro T _ _ _ x a rest
  exact ⟨rfl, rfl, rfl, rfl, rfl, rfl, rfl, rfl,
    rfl, rfl, rfl, rfl, rfl, rfl, rfl, rfl⟩

/-- C6: for every point `x` and single coefficient `c` of a type whose zero
is absorbing for multiplication and neutral for addition, `horner x [c] = c`
(equivalently `0·x + c = c` holds), and `horner x [] = 0` for every `x`. -/
theorem horner_singleton_and_empty :
    ∀ (S : Type) [NonUnitalNonAssocSemiring S] (x c : S),
      horner x [c] = c ∧ (0 : S) * x + c = c ∧ horner x ([] : List S) = 0 := by
  intro S _ x c
  refine ⟨?_, ?_, rfl⟩
  · show (0 : S) * x + c = c
    rw [zero_mul, zero_add]
  · rw [zero_mul, zero_add]

/-- C7: for every `n ≥ 1` (written `n + 1`), the plain `horner!` expansion
contains exactly `n` multiplications and `n` additions, the `n + 1`
coefficient expressions each appear exactly once (in order), and the base
case of a single coefficient expands to that coefficient with no
operation. -/
theorem horner_expansion_shape (n : ℕ) :
    countMul (hornerSyn 0 n) = n ∧
    countAdd (hornerSyn 0 n) = n ∧
    coeffList (hornerSyn 0 n) = List.range (n + 1) ∧
    hornerSyn 0 0 = PExpr.coeff 0 ∧
    countX (hornerSyn 0 n) = n := by
  refine ⟨countMul_hornerSyn n 0, countAdd_hornerSyn n 0, ?_, rfl,
    countX_hornerSyn n 0⟩
  rw [coeffList_hornerSyn, List.range_eq_range']

/-- C8: the Estrin recursion terminates for every coefficient count: one
pairwise round maps a list of length `n` to length `⌈n/2⌉`, which is
strictly smaller whenever `n ≥ 2`, the one- and two-coefficient cases are
terminal, and for `n ≥ 3` the expansion equals one round followed by the
expansion of the strictly shorter list against the squared point. -/
theorem estrin_termination :
    ∀ (T : Type) [Mul T] [Add T] [Zero T] (x a b c0 c1 c2 : T) (rest l : List T),
      (pairReduce x (a :: rest)).length = ((a :: rest).length + 1) / 2 ∧
      (pairReduce x (a :: b :: l)).length < (a :: b :: l).length ∧
      estrinMain x [a] = a ∧
      estrinMain x [a, b] = a + x * b ∧
      estrinMain x (c0 :: c1 :: c2 :: rest) =
        estrinMain (x * x) (pairReduce x (c0 :: c1 :: c2 :: rest)) := by
  intro T _ _ _ x a b c0 c1 c2 rest l
  refine ⟨pairReduce_length x (a :: rest), ?_, by simp [estrinMain],
    by simp [estrinMain], estrin_round x c0 c1 c2 rest⟩
  rw [pairReduce_length]
  simp only [List.length_cons]
  omega

/-- C9: for every slice of `n ≥ 1` coefficients, the runtime `horner` and
`horner_array` evaluators perform exactly `n` multiplications and `n`
additions — one more of each than the `n−1` of the generated expansion —
because the accumulator starts at the additive identity: the fold satisfies
`horner x (c :: cs) = horner x cs · x + c` with `horner x [c] = 0·x + c`,
so the result always includes an initial multiplication of zero by `x`. -/
theorem runtime_op_counts :
    ∀ (T : Type) [Mul T] [Add T] [Zero T] (x a : T) (rest : List T),
      (hornerOps x (a :: rest)).2.1 = (a :: rest).length ∧
      (hornerOps x (a :: rest)).2.2 = (a :: rest).length ∧
      (hornerOps x (a :: rest)).1 = horner x (a :: rest) ∧
      horner_array (a :: rest).length x ⟨a :: rest, rfl⟩ = horner x (a :: rest) ∧
      (a :: rest).length = countMul (hornerSyn 0 rest.length) + 1 ∧
      (a :: rest).length = countAdd (hornerSyn 0 rest.length) + 1 ∧
      (∀ c : T, horner x [c] = 0 * x + c) ∧
      (∀ (c : T) (cs : List T), horner x (c :: cs) = horner x cs * x + c) := by
  intro T _ _ _ x a rest
  refine ⟨?_, ?_, ?_, horner_array_eq_horner x (a :: rest), ?_, ?_,
    fun c => rfl, fun c cs => rfl⟩
  · rw [hornerOps_eq]
  · rw [hornerOps_eq]
  · rw [hornerOps_eq]
  · rw [countMul_hornerSyn]
    simp
  · rw [countAdd_hornerSyn]
    simp

/-- C10: the plain `estrin!` form with exactly 3 coefficients evaluates the
point expression exactly 3 times — once in the low pair `a₀ + x·a₁` (the
reduction step) and twice in computing the squared point `x·x` (the terminal
rule) — whereas the plain `horner!` form with 3 coefficients evaluates it
exactly 2 times. -/
theorem estrin_three_coeff_evals :
    ∀ (T : Type) [Mul T] [Add T] [Zero T] (xv a0 a1 a2 : T),
      (estrinMainRun xv [a0, a1, a2]).2 = 3 ∧
      (estrinAuxRun xv (a0 + xv * a1) [] [a2]).2 = 2 ∧
      (hornerUnrolledRun xv a0 [a1, a2]).2 = 2 := by
  intro T _ _ _ xv a0 a1 a2
  refine ⟨?_, by simp [estrinAuxRun], ?_⟩
  · rw [estrinMainRun_count]
    simp
  · rw [hornerUnrolledRun_count]
    simp

end Claims

end Polyeval
